import Mathlib

/-!
Verification of the host→OCaml conversion layer (`src/conv/to_ocaml.rs`) of
the `ocaml-interop` crate, over a shallow embedding: machine `i64` values are
Lean `Int`s reduced modulo `2^64` where the Rust semantics wraps, the OCaml
runtime (heap, root stack) is an explicit state record, and each `IntoOCaml`
implementation becomes a state-passing Lean function.
-/

/-! ## Immediate integer encoding (`OCamlInt`) -/

/-- Two's-complement reinterpretation of an integer as a 64-bit signed word:
the unique value congruent to `n` mod `2^64` lying in `[-2^63, 2^63)`.
This is what Rust's wrapping `i64` shift produces. -/
def i64wrap (n : Int) : Int := (n + 2 ^ 63) % 2 ^ 64 - 2 ^ 63

/-- `IntoOCaml<OCamlInt> for i64` (src/conv/to_ocaml.rs:50-54): the raw
immediate word is `((self << 1) | 1)`; the `i64` left shift wraps, and the
low tag bit is set with a bitwise or. -/
def i64_to_ocaml_raw (n : Int) : Int := Int.lor (i64wrap (2 * n)) 1

/-- Modelled from the spec: the decoding direction (`FromOCaml`, not under
`src/`) reads an immediate `OCamlInt` back by an arithmetic shift right by
one, as the spec's §4.1 "decode immediates into host integers" and the
round-trip property describe. -/
def ocaml_int_decode (w : Int) : Int := Int.shiftRight w 1

/-- `IntoOCaml<OCamlInt> for i32` (src/conv/to_ocaml.rs:56-60): the value is
first widened to `i64` (`self as i64`, a value-preserving sign extension, the
identity on the mathematical-integer view) and then encoded by the `i64`
implementation. -/
def i32_to_ocaml_raw (n : Int) : Int := i64_to_ocaml_raw n

/-! ## Runtime model: raw values, heap, root stack

The allocation primitives (`crate::memory`) and `BoxRoot` are not part of
`src/`; they are modelled from the spec (§3, §4.2, §4.3) as operations on an
explicit state: a heap of blocks addressed by index, and a root stack whose
cells the collector keeps up to date.  The model tracks the high-water mark of
the root stack so that bounds on root-slot usage are expressible. -/

/-- A raw OCaml word: an immediate (the full tagged word) or a heap address. -/
inductive RawOCaml where
  | imm (w : Int)
  | ptr (a : Nat)
deriving DecidableEq, Repr

/-- A heap block: a record block with a tag and tagged fields, a byte block
(strings/bytes), or a bigarray custom block of untagged numeric data. -/
inductive HeapBlock where
  | record (tag : Nat) (fields : List RawOCaml)
  | byteData (data : List Nat)
  | bigData (data : List Int)
deriving DecidableEq, Repr

/-- Modelled from the spec: the runtime state behind the exclusive runtime
token — the heap (block addresses are list indices) and the root stack
(§4.2), plus the root stack's high-water mark. -/
structure OCamlRuntime where
  heap : List HeapBlock
  roots : List RawOCaml
  hwm : Nat
deriving DecidableEq, Repr

/-- A state-passing conversion: what an `IntoOCaml::to_ocaml` call denotes. -/
abbrev ConvM := OCamlRuntime → RawOCaml × OCamlRuntime

/-- The reserved immediate for `None` (`mlvalues::NONE`): `Val_int 0`, raw word 1. -/
def rawNONE : RawOCaml := RawOCaml.imm 1

/-- The reserved immediate for the empty list (`OCaml::nil()`): raw word 1. -/
def rawNIL : RawOCaml := RawOCaml.imm 1

/-- The immediate for `true` (`mlvalues::TRUE`): `Val_int 1`, raw word 3. -/
def rawTRUE : RawOCaml := RawOCaml.imm 3

/-- The immediate for `false` (`mlvalues::FALSE`): `Val_int 0`, raw word 1. -/
def rawFALSE : RawOCaml := RawOCaml.imm 1

/-- Modelled from the spec: §4.2 "acquire root(initial_value)" / `BoxRoot::new`
— pushes a new root cell holding the value, root-stack depth +1. -/
def pushRoot (v : RawOCaml) (s : OCamlRuntime) : OCamlRuntime :=
  { s with roots := s.roots ++ [v], hwm := max s.hwm (s.roots.length + 1) }

/-- Modelled from the spec: §4.2 "release(owned_root)" / `BoxRoot`'s drop —
pops the most recently acquired root cell (stack discipline). -/
def popRoot (s : OCamlRuntime) : OCamlRuntime :=
  { s with roots := s.roots.dropLast }

/-- Reading a root cell's current content (what passing an `OCamlRef` into an
allocation primitive dereferences to). -/
def rootGet (i : Nat) (s : OCamlRuntime) : RawOCaml :=
  (s.roots[i]?).getD (RawOCaml.imm 1)

/-- Modelled from the spec: §4.2 "update(owned_root, new_raw_value)" /
`BoxRoot::keep` — overwrites the cell in place, depth unchanged. -/
def keepRoot (i : Nat) (v : RawOCaml) (s : OCamlRuntime) : OCamlRuntime :=
  { s with roots := s.roots.set i v }

/-- Modelled from the spec: §4.3 — every allocation primitive appends a fresh
block to the heap and returns an (ephemeral) pointer to it. -/
def allocBlock (b : HeapBlock) (s : OCamlRuntime) : RawOCaml × OCamlRuntime :=
  (RawOCaml.ptr s.heap.length, { s with heap := s.heap ++ [b] })

/-- Modelled from the spec: `alloc_cons` — a 2-field block (head, tail). -/
def alloc_cons (h t : RawOCaml) (s : OCamlRuntime) : RawOCaml × OCamlRuntime :=
  allocBlock (HeapBlock.record 0 [h, t]) s

/-- Modelled from the spec: `alloc_some` — the 1-field "present" block. -/
def alloc_some (v : RawOCaml) (s : OCamlRuntime) : RawOCaml × OCamlRuntime :=
  allocBlock (HeapBlock.record 0 [v]) s

/-- Modelled from the spec: `alloc_ok` — the "ok" result block (tag 0). -/
def alloc_ok (v : RawOCaml) (s : OCamlRuntime) : RawOCaml × OCamlRuntime :=
  allocBlock (HeapBlock.record 0 [v]) s

/-- Modelled from the spec: `alloc_error` — the "error" result block (tag 1). -/
def alloc_error (v : RawOCaml) (s : OCamlRuntime) : RawOCaml × OCamlRuntime :=
  allocBlock (HeapBlock.record 1 [v]) s

/-- Modelled from the spec: `alloc_tuple` — an uninitialized fixed-size block;
the not-yet-stored fields are modelled as the unit immediate. -/
def alloc_tuple (len : Nat) (s : OCamlRuntime) : RawOCaml × OCamlRuntime :=
  allocBlock (HeapBlock.record 0 (List.replicate len (RawOCaml.imm 1))) s

/-- Modelled from the spec: `alloc_string` — copies the byte contents into a
new heap block, read once, fully, before return. -/
def alloc_string (bs : List Nat) (s : OCamlRuntime) : RawOCaml × OCamlRuntime :=
  allocBlock (HeapBlock.byteData bs) s

/-- Modelled from the spec: `alloc_bytes` — same copying allocation for bytes. -/
def alloc_bytes (bs : List Nat) (s : OCamlRuntime) : RawOCaml × OCamlRuntime :=
  allocBlock (HeapBlock.byteData bs) s

/-- Modelled from the spec: `alloc_bigarray1` — allocates the data block and
performs a single bulk copy of the host contiguous storage. -/
def alloc_bigarray1 (xs : List Int) (s : OCamlRuntime) : RawOCaml × OCamlRuntime :=
  allocBlock (HeapBlock.bigData xs) s

/-- Modelled from the spec: `store_raw_field_at` — stores a raw value into
field `i` of the block the rooted value at root-index `ti` points to; the
store itself roots nothing. -/
def store_raw_field_at (ti i : Nat) (v : RawOCaml) (s : OCamlRuntime) : OCamlRuntime :=
  match rootGet ti s with
  | RawOCaml.ptr a =>
    match s.heap[a]? with
    | some (HeapBlock.record tag fields) =>
      { s with heap := s.heap.set a (HeapBlock.record tag (fields.set i v)) }
    | _ => s
  | _ => s

/-- The heap only grows during a conversion: `s'` extends `s`. -/
def HeapExt (s s' : OCamlRuntime) : Prop := ∃ l, s'.heap = s.heap ++ l

/-! ## The conversions of `src/conv/to_ocaml.rs`

Each `IntoOCaml` implementation for a composite shape becomes a `ConvM`
parameterized by the element conversions.  Rust drop order makes every
`BoxRoot` created inside a conversion the top of the root stack when it is
dropped, so drops are `popRoot`. -/

/-- Rust's `Result` type, as converted by `IntoOCaml<Result<...>>`. -/
inductive RustResult (A E : Type) where
  | Ok (a : A)
  | Err (e : E)
deriving DecidableEq, Repr

/-- Rust's `Box<A>`: a heap indirection around a single referent. -/
structure RustBox (A : Type) where
  val : A
deriving DecidableEq, Repr

/-- `IntoOCaml<OCamlInt> for i64` as a `ConvM`: immediates allocate nothing
(src/conv/to_ocaml.rs:50-54, `OCaml::new` wraps the raw word). -/
def i64ToOCaml (n : Int) : ConvM := fun s => (RawOCaml.imm (i64_to_ocaml_raw n), s)

/-- `IntoOCaml<bool> for bool` (src/conv/to_ocaml.rs:80-84): `TRUE`/`FALSE`
immediates, no allocation. -/
def boolToOCaml (b : Bool) : ConvM := fun s => (if b then rawTRUE else rawFALSE, s)

/-- `IntoOCaml<Option<OCamlA>> for Option<A>` (src/conv/to_ocaml.rs:196-208):
`Some` converts the inner value, roots it (`to_boxroot`), wraps it with
`alloc_some`, and the root is dropped on return; `None` is the `NONE`
immediate with no allocation. -/
def optionToOCaml (g : A → ConvM) (x : Option A) : ConvM := fun s =>
  match x with
  | some value =>
    let va := g value s
    let oi := va.2.roots.length
    let s2 := pushRoot va.1 va.2
    let rs := alloc_some (rootGet oi s2) s2
    (rs.1, popRoot rs.2)
  | none => (rawNONE, s)

/-- `IntoOCaml<Result<OCamlA, OCamlErr>> for Result<A, Err>`
(src/conv/to_ocaml.rs:224-242): convert the payload, root it, wrap with
`alloc_ok` / `alloc_error`, drop the root on return. -/
def resultToOCaml (g : A → ConvM) (ge : E → ConvM) (x : RustResult A E) : ConvM := fun s =>
  match x with
  | RustResult.Ok value =>
    let va := g value s
    let oi := va.2.roots.length
    let s2 := pushRoot va.1 va.2
    let rs := alloc_ok (rootGet oi s2) s2
    (rs.1, popRoot rs.2)
  | RustResult.Err error =>
    let va := ge error s
    let oi := va.2.roots.length
    let s2 := pushRoot va.1 va.2
    let rs := alloc_error (rootGet oi s2) s2
    (rs.1, popRoot rs.2)

/-- One iteration of the list-building loop (src/conv/to_ocaml.rs:270-274):
convert the element, root it (`to_boxroot`), allocate a cons cell from the
rooted element and the current content of the reused `result` root `ri`,
overwrite `ri` with the cons cell (`result.keep(cons)`), and drop the
element's root at the end of the iteration. -/
def consStep (g : A → ConvM) (ri : Nat) (s : OCamlRuntime) (a : A) : OCamlRuntime :=
  let va := g a s
  let oi := va.2.roots.length
  let s2 := pushRoot va.1 va.2
  let cs := alloc_cons (rootGet oi s2) (rootGet ri s2) s2
  popRoot (keepRoot ri cs.1 cs.2)

/-- `IntoOCaml<OCamlList<OCamlA>> for &[A]` / `Vec<A>`
(src/conv/to_ocaml.rs:264-307): start from the nil immediate in one reused
root, iterate the elements in reverse, and finally read the root
(`cr.get(&result)`) and drop it. -/
def listToOCaml (g : A → ConvM) (xs : List A) : ConvM := fun s =>
  let ri := s.roots.length
  let s1 := pushRoot rawNIL s
  let s2 := (xs.reverse).foldl (consStep g ri) s1
  (rootGet ri s2, popRoot s2)

/-- The field-store sequence of the tuple macro body: for each field position
in ascending order, convert that field's value (`self.$n.to_ocaml(cr)`) and
store its raw representation at that position through the rooted tuple. -/
def storeFields (ti : Nat) : Nat → List ConvM → OCamlRuntime → OCamlRuntime
  | _, [], s => s
  | i, f :: fs, s =>
    let vs := f s
    storeFields ti (i + 1) fs (store_raw_field_at ti i vs.1 vs.2)

/-- `tuple_to_ocaml!` (src/conv/to_ocaml.rs:321-361): allocate the
uninitialized block once (`alloc_tuple`), root it (`BoxRoot::new`), store
every field in ascending position order with the tuple root live, then read
the root and drop it. -/
def tupleToOCaml (fields : List ConvM) : ConvM := fun s =>
  let len := fields.length
  let ts := alloc_tuple len s
  let ti := ts.2.roots.length
  let s2 := pushRoot ts.1 ts.2
  let s3 := storeFields ti 0 fields s2
  (rootGet ti s3, popRoot s3)

/-- `str::from_utf8_unchecked` (src/conv/to_ocaml.rs:147): a zero-cost
reinterpretation of the bytes as text — no validation, no transformation. -/
def from_utf8_unchecked_bytes (bs : List Nat) : List Nat := bs

/-- `IntoOCaml<String> for &[u8]` (src/conv/to_ocaml.rs:145-149): reinterpret
the bytes as text without any encoding check and copy them with
`alloc_string`. -/
def bytesToOCamlString (bs : List Nat) : ConvM := fun s =>
  alloc_string (from_utf8_unchecked_bytes bs) s

/-- `IntoOCaml<Array1<A>> for &[A]` (src/conv/to_ocaml.rs:427-432): a single
bulk allocation-plus-copy of the host slice, no per-element work. -/
def sliceToOCamlArray1 (xs : List Int) : ConvM := fun s => alloc_bigarray1 xs s

/-- `IntoOCaml<OCamlA> for &Box<A>` (src/conv/to_ocaml.rs:187-194):
`self.as_ref().to_ocaml(cr)` — delegate to the referent's conversion. -/
def boxToOCaml (g : A → ConvM) (b : RustBox A) : ConvM := g b.val

/-- `IntoOCaml<OCamlT> for &&T` (src/conv/to_ocaml.rs:309-317):
`(*self).to_ocaml(cr)` — delegate through the double reference. -/
def refRefToOCaml (g : A → ConvM) (x : A) : ConvM := g x

/-! ## Decoders (the foreign→host reading direction, used to state that the
built structures hold exactly the source values) -/

/-- Reading an OCaml list back: fuel-indexed walk over cons cells. -/
def decodeList (dec : RawOCaml → OCamlRuntime → Option A) :
    Nat → RawOCaml → OCamlRuntime → Option (List A)
  | 0, _, _ => none
  | _ + 1, RawOCaml.imm w, _ => if w = 1 then some [] else none
  | fuel + 1, RawOCaml.ptr a, s =>
    match s.heap[a]? with
    | some (HeapBlock.record 0 [h, t]) =>
      match dec h s, decodeList dec fuel t s with
      | some x, some r => some (x :: r)
      | _, _ => none
    | _ => none

/-- Reading an OCaml option back: the `NONE` immediate or a 1-field block. -/
def decodeOption (dec : RawOCaml → OCamlRuntime → Option A)
    (v : RawOCaml) (s : OCamlRuntime) : Option (Option A) :=
  match v with
  | RawOCaml.imm w => if w = 1 then some none else none
  | RawOCaml.ptr a =>
    match s.heap[a]? with
    | some (HeapBlock.record 0 [p]) =>
      match dec p s with
      | some x => some (some x)
      | none => none
    | _ => none

/-- Reading an OCaml result back: tag 0 is `Ok`, tag 1 is `Err`. -/
def decodeResult (dec : RawOCaml → OCamlRuntime → Option A)
    (decE : RawOCaml → OCamlRuntime → Option E)
    (v : RawOCaml) (s : OCamlRuntime) : Option (RustResult A E) :=
  match v with
  | RawOCaml.ptr a =>
    match s.heap[a]? with
    | some (HeapBlock.record 0 [p]) =>
      match dec p s with
      | some x => some (RustResult.Ok x)
      | none => none
    | some (HeapBlock.record 1 [p]) =>
      match decE p s with
      | some e => some (RustResult.Err e)
      | none => none
    | _ => none
  | _ => none

/-- Decoding a list of raw field values pointwise. -/
def decodeAll (dec : RawOCaml → Option A) : List RawOCaml → Option (List A)
  | [] => some []
  | v :: vs =>
    match dec v, decodeAll dec vs with
    | some x, some r => some (x :: r)
    | _, _ => none

/-- Reading a tuple back: all fields of the record block, in order, each
decoded in the given runtime state. -/
def decodeTuple (dec : RawOCaml → OCamlRuntime → Option A)
    (v : RawOCaml) (s : OCamlRuntime) : Option (List A) :=
  match v with
  | RawOCaml.ptr a =>
    match s.heap[a]? with
    | some (HeapBlock.record 0 fields) => decodeAll (fun f => dec f s) fields
    | _ => none
  | _ => none

/-- The decoder of byte/string payloads: follows the pointer to its byte
block in the heap (genuinely state-dependent). -/
def decodeByteData (v : RawOCaml) (s : OCamlRuntime) : Option (List Nat) :=
  match v with
  | RawOCaml.ptr a =>
    match s.heap[a]? with
    | some (HeapBlock.byteData d) => some d
    | _ => none
  | _ => none

/-- The `Borrow<[A]>` readback of a bigarray (src/conv/to_ocaml.rs:437-444):
the array's own data block. -/
def bigarrayContents (v : RawOCaml) (s : OCamlRuntime) : Option (List Int) :=
  match v with
  | RawOCaml.ptr a =>
    match s.heap[a]? with
    | some (HeapBlock.bigData d) => some d
    | _ => none
  | _ => none

/-- The decoder of immediate `OCamlInt`s, pointwise on the runtime. -/
def decodeIntImm (v : RawOCaml) (_s : OCamlRuntime) : Option Int :=
  match v with
  | RawOCaml.imm w => some (ocaml_int_decode w)
  | _ => none

/-- The decoder of booleans, on the raw word alone. -/
def decodeBoolRaw (v : RawOCaml) : Option Bool :=
  match v with
  | RawOCaml.imm 3 => some true
  | RawOCaml.imm 1 => some false
  | _ => none

/-- The decoder of booleans, pointwise on the runtime. -/
def decodeBool (v : RawOCaml) (_s : OCamlRuntime) : Option Bool :=
  decodeBoolRaw v

/-! ## Hypotheses relating element conversions and decoders -/

/-- A decoder is stable under heap extension: values already readable stay
readable with the same meaning as the heap grows. -/
def DecStable (dec : RawOCaml → OCamlRuntime → Option A) : Prop :=
  ∀ v a s s', HeapExt s s' → dec v s = some a → dec v s' = some a

/-- An element conversion is correct for a decoder: it only extends the heap,
restores the root stack, and its produced value decodes to the element in the
state it returns. -/
def ConvOk (g : A → ConvM) (dec : RawOCaml → OCamlRuntime → Option A) : Prop :=
  ∀ a s, HeapExt s (g a s).2 ∧ (g a s).2.roots = s.roots ∧
    dec (g a s).1 (g a s).2 = some a

/-- An element conversion restores the root stack (the part of `ConvOk` the
root-discipline claims need). -/
def RootsPreserved (g : A → ConvM) : Prop :=
  ∀ a s, (g a s).2.roots = s.roots

/-- An element conversion never pushes the high-water mark more than `c`
slots above the depth it is called at. -/
def HwmBounded (g : A → ConvM) (c : Nat) : Prop :=
  ∀ a s, (g a s).2.hwm ≤ max s.hwm (s.roots.length + c)

/-- The heap changes a partially filled tuple at address `L` is subject to:
later field conversions only append blocks, and later field stores only
rewrite the block at `L` itself, so every other existing address keeps its
block. -/
def HeapExtExceptAt (L : Nat) (s s' : OCamlRuntime) : Prop :=
  s.heap.length ≤ s'.heap.length ∧
  ∀ a, a < s.heap.length → a ≠ L → s'.heap[a]? = s.heap[a]?

/-- A field conversion paired with the host value its output decodes to,
relative to the address `L` of the tuple block being filled: it only extends
the heap, restores the root stack, and its produced raw value still decodes
to the host field value in every later state reachable by further heap
extensions and further stores into the tuple block at `L`.  Heap-allocating
field conversions (strings, boxed numerics, nested composites) satisfy this:
their fresh blocks live at addresses other than `L`, which later stores never
touch. -/
def FieldOkAt (dec : RawOCaml → OCamlRuntime → Option A) (L : Nat)
    (f : ConvM) (a : A) : Prop :=
  ∀ u, L < u.heap.length →
    HeapExt u (f u).2 ∧ (f u).2.roots = u.roots ∧
    ∀ u2, HeapExtExceptAt L (f u).2 u2 → dec (f u).1 u2 = some a

/-- All conversions in a list of field converters restore the root stack. -/
def FieldsRootsPreserved (fields : List ConvM) : Prop :=
  ∀ f ∈ fields, ∀ s, (f s).2.roots = s.roots

theorem nat_lor_two_mul_one (k : Nat) : (2 * k) ||| 1 = 2 * k + 1 := by
  apply Nat.eq_of_testBit_eq
  intro i
  cases i with
  | zero =>
    rw [Nat.testBit_lor]
    have h1 : (2 * k) % 2 = 0 := by omega
    have h2 : (2 * k + 1) % 2 = 1 := by omega
    simp [Nat.testBit_zero, h1, h2]
  | succ j =>
    rw [Nat.testBit_lor]
    have h1 : 2 * k / 2 = k := by omega
    have h2 : (2 * k + 1) / 2 = k := by omega
    have h3 : (1 : Nat) / 2 = 0 := by omega
    simp [Nat.testBit_succ, h1, h2, h3]

theorem nat_ldiff_two_mul_add_one_one (m : Nat) : Nat.ldiff (2 * m + 1) 1 = 2 * m := by
  apply Nat.eq_of_testBit_eq
  intro i
  cases i with
  | zero =>
    rw [Nat.testBit_ldiff]
    have h1 : (2 * m) % 2 = 0 := by omega
    have h2 : (2 * m + 1) % 2 = 1 := by omega
    simp [Nat.testBit_zero, h1, h2]
  | succ j =>
    rw [Nat.testBit_ldiff]
    have h1 : 2 * m / 2 = m := by omega
    have h2 : (2 * m + 1) / 2 = m := by omega
    have h3 : (1 : Nat) / 2 = 0 := by omega
    simp [Nat.testBit_succ, h1, h2, h3]

/-- Setting the tag bit of an even (just-shifted) word is the same as adding one. -/
theorem int_lor_two_mul_one (n : Int) : Int.lor (2 * n) 1 = 2 * n + 1 := by
  cases n with
  | ofNat k =>
    have h : 2 * Int.ofNat k = Int.ofNat (2 * k) := by simp [Int.ofNat_mul]
    rw [h]
    show Int.ofNat ((2 * k) ||| 1) = Int.ofNat (2 * k) + 1
    rw [nat_lor_two_mul_one]
    simp
  | negSucc m =>
    have h : 2 * Int.negSucc m = Int.negSucc (2 * m + 1) := by
      rw [Int.negSucc_eq, Int.negSucc_eq]
      push_cast
      ring
    rw [h]
    show Int.negSucc (Nat.ldiff (2 * m + 1) 1) = Int.negSucc (2 * m + 1) + 1
    rw [nat_ldiff_two_mul_add_one_one, Int.negSucc_eq, Int.negSucc_eq]
    push_cast
    ring

theorem nat_shiftRight_one (n : Nat) : n >>> 1 = n / 2 := by
  simp [Nat.shiftRight_succ, Nat.shiftRight_zero]

/-- Arithmetic shift right by one undoes the tagged encoding `2*n+1`. -/
theorem int_asr_one_two_mul_add_one (n : Int) : Int.shiftRight (2 * n + 1) 1 = n := by
  cases n with
  | ofNat k =>
    have h : 2 * Int.ofNat k + 1 = Int.ofNat (2 * k + 1) := by simp [Int.ofNat_mul]
    rw [h]
    show Int.ofNat ((2 * k + 1) >>> 1) = Int.ofNat k
    rw [nat_shiftRight_one]
    congr 1
    omega
  | negSucc m =>
    have h : 2 * Int.negSucc m + 1 = Int.negSucc (2 * m) := by
      rw [Int.negSucc_eq, Int.negSucc_eq]
      push_cast
      ring
    rw [h]
    show Int.negSucc ((2 * m) >>> 1) = Int.negSucc m
    rw [nat_shiftRight_one]
    congr 1
    omega

theorem i64wrap_eq_self (n : Int) (h1 : -(2 ^ 63) ≤ n) (h2 : n < 2 ^ 63) :
    i64wrap n = n := by
  unfold i64wrap
  have h3 : (0 : Int) ≤ n + 2 ^ 63 := by omega
  have h4 : n + 2 ^ 63 < 2 ^ 64 := by omega
  rw [Int.emod_eq_of_lt h3 h4]
  omega

/-- Shared round-trip core: within the 63-bit range nothing wraps, the word is
`2*n+1`, and the arithmetic shift right recovers `n`. -/
theorem i64_encode_decode_in_range (n : Int) (h1 : -(2 ^ 62) ≤ n) (h2 : n < 2 ^ 62) :
    ocaml_int_decode (i64_to_ocaml_raw n) = n := by
  unfold ocaml_int_decode i64_to_ocaml_raw
  rw [i64wrap_eq_self (2 * n) (by omega) (by omega), int_lor_two_mul_one,
    int_asr_one_two_mul_add_one]

theorem HeapExt.refl (s : OCamlRuntime) : HeapExt s s := ⟨[], by simp⟩

theorem HeapExt.trans {s t u : OCamlRuntime} (h1 : HeapExt s t) (h2 : HeapExt t u) :
    HeapExt s u := by
  obtain ⟨l1, e1⟩ := h1
  obtain ⟨l2, e2⟩ := h2
  exact ⟨l1 ++ l2, by rw [e2, e1, List.append_assoc]⟩

theorem HeapExt.getElem {s s' : OCamlRuntime} (h : HeapExt s s') {a : Nat}
    {b : HeapBlock} (hb : s.heap[a]? = some b) : s'.heap[a]? = some b := by
  obtain ⟨l, e⟩ := h
  have ha : a < s.heap.length := by
    by_contra hc
    rw [List.getElem?_eq_none (by omega)] at hb
    exact Option.noConfusion hb
  rw [e]
  simp [List.getElem?_append, ha, hb]

/-! ## Toolkit lemmas about the state operations -/

theorem rootGet_concat_self (s : OCamlRuntime) (r : List RawOCaml) (v : RawOCaml)
    (h : s.roots = r ++ [v]) : rootGet r.length s = v := by
  unfold rootGet
  rw [h, List.getElem?_concat_length]
  rfl

theorem rootGet_concat_lower (s : OCamlRuntime) (r : List RawOCaml) (v : RawOCaml)
    (h : s.roots = r ++ [v]) (i : Nat) (hi : i < r.length) :
    rootGet i s = rootGet i { s with roots := r } := by
  unfold rootGet
  rw [h]
  simp [List.getElem?_append, hi]

theorem store_raw_field_at_roots (ti i : Nat) (v : RawOCaml) (s : OCamlRuntime) :
    (store_raw_field_at ti i v s).roots = s.roots := by
  unfold store_raw_field_at
  split
  case _ a heq =>
    split
    case _ tag fields heq2 => rfl
    case _ => rfl
  case _ => rfl

theorem decodeList_stable (dec : RawOCaml → OCamlRuntime → Option A)
    (hdec : DecStable dec) :
    ∀ (f : Nat) (v : RawOCaml) (s s' : OCamlRuntime) (l : List A),
    HeapExt s s' → decodeList dec f v s = some l → decodeList dec f v s' = some l := by
  intro f
  induction f with
  | zero =>
    intro v s s' l _ h
    simp [decodeList] at h
  | succ fuel ih =>
    intro v s s' l hext h
    cases v with
    | imm w =>
      simp only [decodeList] at h ⊢
      exact h
    | ptr a =>
      simp only [decodeList] at h ⊢
      split at h
      case _ hv t heq =>
        rw [hext.getElem heq]
        split at h
        case _ x r hx hr =>
          injection h with h2
          subst h2
          have hx' := hdec _ _ _ _ hext hx
          have hr' := ih t s s' r hext hr
          simp [hx', hr']
        case _ hbad =>
          exact absurd h (by simp)
      case _ =>
        exact absurd h (by simp)

theorem list_set_concat (l : List α) (a b : α) : (l ++ [a]).set l.length b = l ++ [b] := by
  rw [List.set_append]
  simp

theorem list_set_concat2 (l : List α) (a w b : α) :
    ((l ++ [a]) ++ [w]).set l.length b = (l ++ [b]) ++ [w] := by
  rw [List.set_append]
  have h : l.length < (l ++ [a]).length := by simp
  simp only [h, if_pos, list_set_concat]

theorem rootGet_concat2 (s : OCamlRuntime) (r : List RawOCaml) (v w : RawOCaml)
    (h : s.roots = (r ++ [v]) ++ [w]) : rootGet r.length s = v := by
  unfold rootGet
  rw [h]
  have h1 : r.length < (r ++ [v]).length := by simp
  rw [List.getElem?_append, if_pos h1, List.getElem?_concat_length]
  rfl

theorem pushRoot_heap (v : RawOCaml) (s : OCamlRuntime) : (pushRoot v s).heap = s.heap := rfl

theorem pushRoot_roots (v : RawOCaml) (s : OCamlRuntime) :
    (pushRoot v s).roots = s.roots ++ [v] := rfl

theorem pushRoot_hwm (v : RawOCaml) (s : OCamlRuntime) :
    (pushRoot v s).hwm = max s.hwm (s.roots.length + 1) := rfl

theorem popRoot_heap (s : OCamlRuntime) : (popRoot s).heap = s.heap := rfl

theorem popRoot_roots (s : OCamlRuntime) : (popRoot s).roots = s.roots.dropLast := rfl

theorem popRoot_hwm (s : OCamlRuntime) : (popRoot s).hwm = s.hwm := rfl

theorem keepRoot_heap (i : Nat) (v : RawOCaml) (s : OCamlRuntime) :
    (keepRoot i v s).heap = s.heap := rfl

theorem keepRoot_roots (i : Nat) (v : RawOCaml) (s : OCamlRuntime) :
    (keepRoot i v s).roots = s.roots.set i v := rfl

theorem keepRoot_hwm (i : Nat) (v : RawOCaml) (s : OCamlRuntime) :
    (keepRoot i v s).hwm = s.hwm := rfl

theorem allocBlock_fst (b : HeapBlock) (s : OCamlRuntime) :
    (allocBlock b s).1 = RawOCaml.ptr s.heap.length := rfl

theorem allocBlock_heap (b : HeapBlock) (s : OCamlRuntime) :
    (allocBlock b s).2.heap = s.heap ++ [b] := rfl

theorem allocBlock_roots (b : HeapBlock) (s : OCamlRuntime) :
    (allocBlock b s).2.roots = s.roots := rfl

theorem allocBlock_hwm (b : HeapBlock) (s : OCamlRuntime) :
    (allocBlock b s).2.hwm = s.hwm := rfl

/-- One `consStep` conses the converted element onto the list held in the
reused root, extends the heap, and stays within two extra root slots. -/
theorem consStep_spec (g : A → ConvM) (dec : RawOCaml → OCamlRuntime → Option A)
    (c : Nat) (hdec : DecStable dec) (hg : ConvOk g dec) (hc : HwmBounded g c)
    (r : List RawOCaml) (v1 : RawOCaml) (t1 : OCamlRuntime) (x : A) (ys : List A) (fy : Nat)
    (hroots : t1.roots = r ++ [v1])
    (hdecv : decodeList dec fy v1 t1 = some ys) :
    ∃ v2, (consStep g r.length t1 x).roots = r ++ [v2] ∧
      HeapExt t1 (consStep g r.length t1 x) ∧
      decodeList dec (fy + 1) v2 (consStep g r.length t1 x) = some (x :: ys) ∧
      (consStep g r.length t1 x).hwm ≤ max t1.hwm (r.length + c + 2) := by
  obtain ⟨hext, hr, hd⟩ := hg x t1
  have hb := hc x t1
  rcases hgx : g x t1 with ⟨v, u⟩
  rw [hgx] at hext hr hd hb
  simp only at hext hr hd hb
  have hur : u.roots = r ++ [v1] := by rw [hr, hroots]
  have hg1 : rootGet u.roots.length (pushRoot v u) = v :=
    rootGet_concat_self _ u.roots v (pushRoot_roots v u)
  have hg2 : rootGet r.length (pushRoot v u) = v1 :=
    rootGet_concat2 _ r v1 v (by rw [pushRoot_roots, hur])
  have hstep : consStep g r.length t1 x =
      popRoot (keepRoot r.length (RawOCaml.ptr u.heap.length)
        { pushRoot v u with heap := u.heap ++ [HeapBlock.record 0 [v, v1]] }) := by
    simp only [consStep, hgx, hg1, hg2, alloc_cons, allocBlock, pushRoot_heap]
  rw [hstep]
  refine ⟨RawOCaml.ptr u.heap.length, ?_, ?_, ?_, ?_⟩
  · rw [popRoot_roots, keepRoot_roots]
    show (((pushRoot v u).roots).set r.length (RawOCaml.ptr u.heap.length)).dropLast =
      r ++ [RawOCaml.ptr u.heap.length]
    rw [pushRoot_roots, hur, list_set_concat2, List.dropLast_concat]
  · refine hext.trans ⟨[HeapBlock.record 0 [v, v1]], ?_⟩
    rw [popRoot_heap, keepRoot_heap]
  · have hL : (u.heap ++ [HeapBlock.record 0 [v, v1]])[u.heap.length]? =
        some (HeapBlock.record 0 [v, v1]) := List.getElem?_concat_length ..
    have hheap : (popRoot (keepRoot r.length (RawOCaml.ptr u.heap.length)
        { pushRoot v u with heap := u.heap ++ [HeapBlock.record 0 [v, v1]] })).heap =
        u.heap ++ [HeapBlock.record 0 [v, v1]] := by
      rw [popRoot_heap, keepRoot_heap]
    have hextu : HeapExt u (popRoot (keepRoot r.length (RawOCaml.ptr u.heap.length)
        { pushRoot v u with heap := u.heap ++ [HeapBlock.record 0 [v, v1]] })) :=
      ⟨[HeapBlock.record 0 [v, v1]], hheap⟩
    have hdv : dec v (popRoot (keepRoot r.length (RawOCaml.ptr u.heap.length)
        { pushRoot v u with heap := u.heap ++ [HeapBlock.record 0 [v, v1]] })) = some x :=
      hdec _ _ _ _ hextu hd
    have hdl : decodeList dec fy v1 (popRoot (keepRoot r.length (RawOCaml.ptr u.heap.length)
        { pushRoot v u with heap := u.heap ++ [HeapBlock.record 0 [v, v1]] })) = some ys :=
      decodeList_stable dec hdec fy v1 t1 _ ys (hext.trans hextu) hdecv
    simp only [decodeList, hheap, hL, hdv, hdl]
  · rw [popRoot_hwm, keepRoot_hwm]
    show ({ pushRoot v u with heap := u.heap ++ [HeapBlock.record 0 [v, v1]] }).hwm ≤
      max t1.hwm (r.length + c + 2)
    have h1 : ({ pushRoot v u with heap := u.heap ++ [HeapBlock.record 0 [v, v1]] }).hwm =
        max u.hwm (u.roots.length + 1) := rfl
    have h2 : u.roots.length = r.length + 1 := by rw [hur]; simp
    have h3 : t1.roots.length = r.length + 1 := by rw [hroots]; simp
    rw [h1, h2]
    rw [h3] at hb
    omega

/-- Invariant of the reversed-iteration loop: starting from a state whose last
root holds a value decoding to `ys`, folding `consStep` over `xs.reverse`
leaves the other roots untouched, only extends the heap, makes the reused
root decode to `xs ++ ys`, and uses O(1) extra root slots. -/
theorem consLoop_invariant (g : A → ConvM) (dec : RawOCaml → OCamlRuntime → Option A)
    (c : Nat) (hdec : DecStable dec) (hg : ConvOk g dec) (hc : HwmBounded g c) :
    ∀ (xs ys : List A) (r : List RawOCaml) (v1 : RawOCaml) (t : OCamlRuntime),
    t.roots = r ++ [v1] →
    decodeList dec (ys.length + 1) v1 t = some ys →
    ∃ v2,
      ((xs.reverse).foldl (consStep g r.length) t).roots = r ++ [v2] ∧
      HeapExt t ((xs.reverse).foldl (consStep g r.length) t) ∧
      decodeList dec (xs.length + ys.length + 1) v2
        ((xs.reverse).foldl (consStep g r.length) t) = some (xs ++ ys) ∧
      ((xs.reverse).foldl (consStep g r.length) t).hwm ≤ max t.hwm (r.length + c + 2) := by
  intro xs
  induction xs with
  | nil =>
    intro ys r v1 t hroots hdecv
    refine ⟨v1, hroots, HeapExt.refl t, ?_, ?_⟩
    · simpa using hdecv
    · simp
  | cons x xs ih =>
    intro ys r v1 t hroots hdecv
    obtain ⟨v2, hroots2, hext2, hdecv2, hhwm2⟩ := ih ys r v1 t hroots hdecv
    have hfold : ((x :: xs).reverse).foldl (consStep g r.length) t =
        consStep g r.length ((xs.reverse).foldl (consStep g r.length) t) x := by
      rw [List.reverse_cons, List.foldl_append]
      rfl
    obtain ⟨v3, hroots3, hext3, hdecv3, hhwm3⟩ :=
      consStep_spec g dec c hdec hg hc r v2 ((xs.reverse).foldl (consStep g r.length) t)
        x (xs ++ ys) (xs.length + ys.length + 1) hroots2 hdecv2
    refine ⟨v3, ?_, ?_, ?_, ?_⟩
    · rw [hfold]
      exact hroots3
    · rw [hfold]
      exact hext2.trans hext3
    · rw [hfold]
      have hlen : (x :: xs).length + ys.length + 1 = (xs.length + ys.length + 1) + 1 := by
        simp
        omega
      rw [hlen]
      simpa using hdecv3
    · rw [hfold]
      refine le_trans hhwm3 ?_
      omega

/-- The single-pass list conversion: roots restored, heap only extended, the
result decodes to exactly the source elements in source order, and the root
stack never grows by more than two slots beyond the element conversions' own
constant need. -/
theorem listToOCaml_spec (g : A → ConvM) (dec : RawOCaml → OCamlRuntime → Option A)
    (c : Nat) (hdec : DecStable dec) (hg : ConvOk g dec) (hc : HwmBounded g c)
    (xs : List A) (s : OCamlRuntime) :
    (listToOCaml g xs s).2.roots = s.roots ∧
    HeapExt s (listToOCaml g xs s).2 ∧
    decodeList dec (xs.length + 1) (listToOCaml g xs s).1 (listToOCaml g xs s).2 = some xs ∧
    (listToOCaml g xs s).2.hwm ≤ max s.hwm (s.roots.length + c + 2) := by
  have hout : listToOCaml g xs s =
      (rootGet s.roots.length ((xs.reverse).foldl (consStep g s.roots.length) (pushRoot rawNIL s)),
       popRoot ((xs.reverse).foldl (consStep g s.roots.length) (pushRoot rawNIL s))) := rfl
  have hbase : decodeList dec ((List.length ([] : List A)) + 1) rawNIL (pushRoot rawNIL s) =
      some ([] : List A) := by
    simp [decodeList, rawNIL]
  obtain ⟨v2, hroots2, hext2, hdecv2, hhwm2⟩ :=
    consLoop_invariant g dec c hdec hg hc xs [] s.roots rawNIL (pushRoot rawNIL s)
      (pushRoot_roots rawNIL s) hbase
  rw [hout]
  have hpop : HeapExt ((xs.reverse).foldl (consStep g s.roots.length) (pushRoot rawNIL s))
      (popRoot ((xs.reverse).foldl (consStep g s.roots.length) (pushRoot rawNIL s))) :=
    ⟨[], by rw [popRoot_heap]; simp⟩
  refine ⟨?_, ?_, ?_, ?_⟩
  · simp only [popRoot_roots, hroots2, List.dropLast_concat]
  · refine HeapExt.trans ⟨[], by rw [pushRoot_heap]; simp⟩ (hext2.trans hpop)
  · simp only
    rw [rootGet_concat_self _ s.roots v2 hroots2]
    have := decodeList_stable dec hdec (xs.length + 0 + 1) v2 _ _ (xs ++ []) hpop hdecv2
    simpa using this
  · simp only [popRoot_hwm]
    have h1 : (pushRoot rawNIL s).hwm = max s.hwm (s.roots.length + 1) := pushRoot_hwm ..
    rw [h1] at hhwm2
    omega

theorem optionToOCaml_some_eq (g : A → ConvM) (a : A) (s : OCamlRuntime) :
    optionToOCaml g (some a) s =
      (RawOCaml.ptr (g a s).2.heap.length,
       popRoot { pushRoot (g a s).1 (g a s).2 with
         heap := (g a s).2.heap ++ [HeapBlock.record 0 [(g a s).1]] }) := by
  rcases hgx : g a s with ⟨v, u⟩
  have hg1 : rootGet u.roots.length (pushRoot v u) = v :=
    rootGet_concat_self _ u.roots v (pushRoot_roots v u)
  simp only [optionToOCaml, hgx, hg1, alloc_some, allocBlock, pushRoot_heap]

theorem resultToOCaml_ok_eq (g : A → ConvM) (ge : E → ConvM) (a : A) (s : OCamlRuntime) :
    resultToOCaml g ge (RustResult.Ok a) s =
      (RawOCaml.ptr (g a s).2.heap.length,
       popRoot { pushRoot (g a s).1 (g a s).2 with
         heap := (g a s).2.heap ++ [HeapBlock.record 0 [(g a s).1]] }) := by
  rcases hgx : g a s with ⟨v, u⟩
  have hg1 : rootGet u.roots.length (pushRoot v u) = v :=
    rootGet_concat_self _ u.roots v (pushRoot_roots v u)
  simp only [resultToOCaml, hgx, hg1, alloc_ok, allocBlock, pushRoot_heap]

theorem resultToOCaml_err_eq (g : A → ConvM) (ge : E → ConvM) (e : E) (s : OCamlRuntime) :
    resultToOCaml g ge (RustResult.Err e) s =
      (RawOCaml.ptr (ge e s).2.heap.length,
       popRoot { pushRoot (ge e s).1 (ge e s).2 with
         heap := (ge e s).2.heap ++ [HeapBlock.record 1 [(ge e s).1]] }) := by
  rcases hgx : ge e s with ⟨v, u⟩
  have hg1 : rootGet u.roots.length (pushRoot v u) = v :=
    rootGet_concat_self _ u.roots v (pushRoot_roots v u)
  simp only [resultToOCaml, hgx, hg1, alloc_error, allocBlock, pushRoot_heap]

/-- Roots and payload decode for the shared "push payload, allocate one-field
block, pop" wrapping pattern. -/
theorem wrapped_state_spec (v : RawOCaml) (u : OCamlRuntime) (tag : Nat) :
    (popRoot { pushRoot v u with
       heap := u.heap ++ [HeapBlock.record tag [v]] }).roots = u.roots ∧
    (popRoot { pushRoot v u with
       heap := u.heap ++ [HeapBlock.record tag [v]] }).heap = u.heap ++ [HeapBlock.record tag [v]] ∧
    (popRoot { pushRoot v u with
       heap := u.heap ++ [HeapBlock.record tag [v]] }).heap[u.heap.length]? =
      some (HeapBlock.record tag [v]) := by
  refine ⟨?_, rfl, ?_⟩
  · rw [popRoot_roots]
    show (u.roots ++ [v]).dropLast = u.roots
    exact List.dropLast_concat ..
  · exact List.getElem?_concat_length ..

/-- C3: optional conversion: the absent case returns the reserved none
immediate with the state untouched (no allocation) and decodes back to the
absent case; the present case first converts the inner value, roots it, and
wraps it through the one-field "present" primitive, so the result is a fresh
one-field block around the converted payload, decodes back to the original
option, and the root stack is restored. -/
theorem c3_option_conversion (g : A → ConvM) (dec : RawOCaml → OCamlRuntime → Option A)
    (hdec : DecStable dec) (hg : ConvOk g dec) (a : A) (s : OCamlRuntime) :
    optionToOCaml g (none : Option A) s = (rawNONE, s) ∧
    decodeOption dec (optionToOCaml g (none : Option A) s).1
      (optionToOCaml g (none : Option A) s).2 = some none ∧
    (optionToOCaml g (some a) s).2.roots = s.roots ∧
    decodeOption dec (optionToOCaml g (some a) s).1
      (optionToOCaml g (some a) s).2 = some (some a) ∧
    (optionToOCaml g (some a) s).1 = RawOCaml.ptr (g a s).2.heap.length ∧
    (optionToOCaml g (some a) s).2.heap =
      (g a s).2.heap ++ [HeapBlock.record 0 [(g a s).1]] := by
  obtain ⟨hext, hroots, hd⟩ := hg a s
  obtain ⟨hr, hh, hL⟩ := wrapped_state_spec (g a s).1 (g a s).2 0
  have hdv : dec (g a s).1 (popRoot { pushRoot (g a s).1 (g a s).2 with
      heap := (g a s).2.heap ++ [HeapBlock.record 0 [(g a s).1]] }) = some a :=
    hdec _ _ _ _ ⟨[HeapBlock.record 0 [(g a s).1]], hh⟩ hd
  refine ⟨rfl, rfl, ?_, ?_, ?_, ?_⟩
  · rw [optionToOCaml_some_eq]
    simp only [hr, hroots]
  · rw [optionToOCaml_some_eq]
    simp only [decodeOption, hL, hdv]
  · rw [optionToOCaml_some_eq]
  · rw [optionToOCaml_some_eq]
    exact hh

/-- C4: result conversion: the payload (success or failure) is converted
first, rooted, then wrapped through the matching "ok"/"error" one-field
primitive; variant and payload are preserved (the result decodes back to the
original), and the root stack is restored in both cases. -/
theorem c4_result_conversion (g : A → ConvM) (ge : E → ConvM)
    (dec : RawOCaml → OCamlRuntime → Option A) (decE : RawOCaml → OCamlRuntime → Option E)
    (hdec : DecStable dec) (hdecE : DecStable decE)
    (hg : ConvOk g dec) (hge : ConvOk ge decE)
    (a : A) (e : E) (s : OCamlRuntime) :
    (resultToOCaml g ge (RustResult.Ok a) s).2.roots = s.roots ∧
    (resultToOCaml g ge (RustResult.Err e : RustResult A E) s).2.roots = s.roots ∧
    decodeResult dec decE (resultToOCaml g ge (RustResult.Ok a) s).1
      (resultToOCaml g ge (RustResult.Ok a) s).2 = some (RustResult.Ok a) ∧
    decodeResult dec decE (resultToOCaml g ge (RustResult.Err e : RustResult A E) s).1
      (resultToOCaml g ge (RustResult.Err e) s).2 = some (RustResult.Err e) ∧
    (resultToOCaml g ge (RustResult.Ok a) s).1 = RawOCaml.ptr (g a s).2.heap.length ∧
    (resultToOCaml g ge (RustResult.Ok a) s).2.heap =
      (g a s).2.heap ++ [HeapBlock.record 0 [(g a s).1]] ∧
    (resultToOCaml g ge (RustResult.Err e : RustResult A E) s).1 =
      RawOCaml.ptr (ge e s).2.heap.length ∧
    (resultToOCaml g ge (RustResult.Err e : RustResult A E) s).2.heap =
      (ge e s).2.heap ++ [HeapBlock.record 1 [(ge e s).1]] := by
  obtain ⟨hexta, hrootsa, hda⟩ := hg a s
  obtain ⟨hra, hha, hLa⟩ := wrapped_state_spec (g a s).1 (g a s).2 0
  have hdva : dec (g a s).1 (popRoot { pushRoot (g a s).1 (g a s).2 with
      heap := (g a s).2.heap ++ [HeapBlock.record 0 [(g a s).1]] }) = some a :=
    hdec _ _ _ _ ⟨[HeapBlock.record 0 [(g a s).1]], hha⟩ hda
  obtain ⟨hexte, hrootse, hde⟩ := hge e s
  obtain ⟨hre, hhe, hLe⟩ := wrapped_state_spec (ge e s).1 (ge e s).2 1
  have hdve : decE (ge e s).1 (popRoot { pushRoot (ge e s).1 (ge e s).2 with
      heap := (ge e s).2.heap ++ [HeapBlock.record 1 [(ge e s).1]] }) = some e :=
    hdecE _ _ _ _ ⟨[HeapBlock.record 1 [(ge e s).1]], hhe⟩ hde
  refine ⟨?_, ?_, ?_, ?_, ?_, ?_, ?_, ?_⟩
  · rw [resultToOCaml_ok_eq]
    simp only [hra, hrootsa]
  · rw [resultToOCaml_err_eq]
    simp only [hre, hrootse]
  · rw [resultToOCaml_ok_eq]
    simp only [decodeResult, hLa, hdva]
  · rw [resultToOCaml_err_eq]
    simp only [decodeResult, hLe, hdve]
  · rw [resultToOCaml_ok_eq]
  · rw [resultToOCaml_ok_eq]
    exact hha
  · rw [resultToOCaml_err_eq]
  · rw [resultToOCaml_err_eq]
    exact hhe

theorem getElem?_some_lt (l : List α) (i : Nat) (b : α) (h : l[i]? = some b) :
    i < l.length := by
  by_contra hc
  rw [List.getElem?_eq_none (by omega)] at h
  exact Option.noConfusion h

theorem decodeAll_of_forall2 (dec : RawOCaml → Option A) (vs : List RawOCaml)
    (vals : List A) (h : List.Forall₂ (fun v a => dec v = some a) vs vals) :
    decodeAll dec vs = some vals := by
  induction h with
  | nil => rfl
  | cons hd tl ih => simp [decodeAll, hd, ih]

/-- Invariant of the field-store sequence: positions below `i` are untouched,
positions from `i` on are filled, in ascending order, with raw values that
decode to the host field values; the roots and the block's address and arity
are unchanged. -/
theorem heapExtExceptAt_refl (L : Nat) (s : OCamlRuntime) : HeapExtExceptAt L s s :=
  ⟨le_refl _, fun _ _ _ => rfl⟩

theorem heapExtExceptAt_trans {L : Nat} {s t u : OCamlRuntime}
    (h1 : HeapExtExceptAt L s t) (h2 : HeapExtExceptAt L t u) : HeapExtExceptAt L s u := by
  obtain ⟨hl1, ha1⟩ := h1
  obtain ⟨hl2, ha2⟩ := h2
  refine ⟨le_trans hl1 hl2, fun a halt hane => ?_⟩
  rw [ha2 a (lt_of_lt_of_le halt hl1) hane, ha1 a halt hane]

theorem heapExtExceptAt_of_heapExt {L : Nat} {s t : OCamlRuntime}
    (h : HeapExt s t) : HeapExtExceptAt L s t := by
  obtain ⟨l, hl⟩ := h
  refine ⟨by rw [hl]; simp, fun a halt _ => ?_⟩
  rw [hl]
  simp [List.getElem?_append, halt]

theorem heapExtExceptAt_set (L : Nat) (s : OCamlRuntime) (b : HeapBlock) :
    HeapExtExceptAt L s { s with heap := s.heap.set L b } := by
  refine ⟨by simp, fun a halt hane => ?_⟩
  have h : L ≠ a := fun he => hane he.symm
  simp [List.getElem?_set, h]

/-- Invariant of the field-store sequence: positions below `i` are untouched,
positions from `i` on are filled, in ascending order, with raw values that
keep decoding to the host field values in every later reachable state; the
roots and the block's address and arity are unchanged, and the whole sequence
only extends the heap and rewrites the block at `L`. -/
theorem storeFields_invariant (dec : RawOCaml → OCamlRuntime → Option A) (L : Nat) :
    ∀ (fs : List ConvM) (vals : List A), List.Forall₂ (FieldOkAt dec L) fs vals →
    ∀ (i : Nat) (r : List RawOCaml) (cur : List RawOCaml) (t : OCamlRuntime),
    t.roots = r ++ [RawOCaml.ptr L] →
    t.heap[L]? = some (HeapBlock.record 0 cur) →
    i + fs.length = cur.length →
    ∃ cur2,
      (storeFields r.length i fs t).roots = t.roots ∧
      cur2.length = cur.length ∧
      (storeFields r.length i fs t).heap[L]? = some (HeapBlock.record 0 cur2) ∧
      (∀ j, j < i → cur2[j]? = cur[j]?) ∧
      HeapExtExceptAt L t (storeFields r.length i fs t) ∧
      List.Forall₂ (fun v a => ∀ u2, HeapExtExceptAt L (storeFields r.length i fs t) u2 →
        dec v u2 = some a) (cur2.drop i) vals := by
  intro fs vals hf
  induction hf with
  | nil =>
    intro i r cur t htroots htL hlen
    refine ⟨cur, rfl, rfl, htL, fun j _ => rfl, heapExtExceptAt_refl L t, ?_⟩
    have hi : i = cur.length := by simpa using hlen
    rw [hi, List.drop_length]
    exact List.Forall₂.nil
  | @cons f a fs2 vals2 hfa hrest ih =>
    intro i r cur t htroots htL hlen
    have hLt : L < t.heap.length := getElem?_some_lt _ _ _ htL
    obtain ⟨hext, hroots, hdecv⟩ := hfa t hLt
    rcases hfx : f t with ⟨v, u⟩
    rw [hfx] at hext hroots hdecv
    simp only at hext hroots hdecv
    have hur : u.roots = r ++ [RawOCaml.ptr L] := by rw [hroots, htroots]
    have hrg : rootGet r.length u = RawOCaml.ptr L := rootGet_concat_self _ r _ hur
    have huL : u.heap[L]? = some (HeapBlock.record 0 cur) := hext.getElem htL
    have hLlt : L < u.heap.length := getElem?_some_lt _ _ _ huL
    have hstore : store_raw_field_at r.length i v u =
        { u with heap := u.heap.set L (HeapBlock.record 0 (cur.set i v)) } := by
      simp only [store_raw_field_at, hrg, huL]
    have hunf : storeFields r.length i (f :: fs2) t =
        storeFields r.length (i + 1) fs2
          { u with heap := u.heap.set L (HeapBlock.record 0 (cur.set i v)) } := by
      simp only [storeFields, hfx, hstore]
    have hilt : i < cur.length := by simp at hlen; omega
    have hextset : HeapExtExceptAt L u
        { u with heap := u.heap.set L (HeapBlock.record 0 (cur.set i v)) } :=
      heapExtExceptAt_set L u (HeapBlock.record 0 (cur.set i v))
    obtain ⟨cur3, hroots3, hlen3, hL3, hlow3, hexcept3, hfa3⟩ :=
      ih (i + 1) r (cur.set i v)
        { u with heap := u.heap.set L (HeapBlock.record 0 (cur.set i v)) }
        hur (by simp [List.getElem?_set, hLlt]) (by simp at hlen ⊢; omega)
    rw [hunf]
    have hexcept_full : HeapExtExceptAt L t
        (storeFields r.length (i + 1) fs2
          { u with heap := u.heap.set L (HeapBlock.record 0 (cur.set i v)) }) :=
      heapExtExceptAt_trans (heapExtExceptAt_of_heapExt hext)
        (heapExtExceptAt_trans hextset hexcept3)
    refine ⟨cur3, ?_, ?_, hL3, ?_, hexcept_full, ?_⟩
    · rw [hroots3]
      show u.roots = t.roots
      rw [hroots]
    · rw [hlen3]
      simp
    · intro j hj
      rw [hlow3 j (by omega)]
      have hij : i ≠ j := by omega
      simp [List.getElem?_set, hij]
    · have hic3 : i < cur3.length := by rw [hlen3]; simp; omega
      rw [List.drop_eq_getElem_cons hic3]
      have hv3 : cur3[i]? = some v := by
        rw [hlow3 i (by omega)]
        simp [List.getElem?_set, hilt]
      have hv3e : cur3[i] = v := by
        rw [List.getElem?_eq_getElem hic3] at hv3
        injection hv3
      refine List.Forall₂.cons ?_ hfa3
      rw [hv3e]
      intro u2 hu2
      exact hdecv u2 (heapExtExceptAt_trans hextset (heapExtExceptAt_trans hexcept3 hu2))

/-- C5: tuple conversion (arity 2-10): the uninitialized fixed-size block is
allocated exactly once at the first fresh address and rooted; each field, in
ascending position order, is converted and its raw representation stored
directly into the block while the tuple root stays live; the result decodes
to exactly the host field values in field order — including heap-allocating
fields such as strings — and the root stack is restored. -/
theorem c5_tuple_conversion (dec : RawOCaml → OCamlRuntime → Option A)
    (fields : List ConvM) (vals : List A) (s : OCamlRuntime)
    (hf : List.Forall₂ (FieldOkAt dec s.heap.length) fields vals)
    (h2 : 2 ≤ fields.length) (h10 : fields.length ≤ 10) :
    (tupleToOCaml fields s).1 = RawOCaml.ptr s.heap.length ∧
    (tupleToOCaml fields s).2.roots = s.roots ∧
    decodeTuple dec (tupleToOCaml fields s).1 (tupleToOCaml fields s).2 = some vals := by
  have hout : tupleToOCaml fields s =
      (rootGet s.roots.length
         (storeFields s.roots.length 0 fields
           (pushRoot (RawOCaml.ptr s.heap.length)
             { s with heap := s.heap ++
                 [HeapBlock.record 0 (List.replicate fields.length (RawOCaml.imm 1))] })),
       popRoot
         (storeFields s.roots.length 0 fields
           (pushRoot (RawOCaml.ptr s.heap.length)
             { s with heap := s.heap ++
                 [HeapBlock.record 0 (List.replicate fields.length (RawOCaml.imm 1))] }))) := rfl
  have hroots2 : (pushRoot (RawOCaml.ptr s.heap.length)
      { s with heap := s.heap ++
          [HeapBlock.record 0 (List.replicate fields.length (RawOCaml.imm 1))] }).roots =
      s.roots ++ [RawOCaml.ptr s.heap.length] := pushRoot_roots ..
  have hheap2 : (pushRoot (RawOCaml.ptr s.heap.length)
      { s with heap := s.heap ++
          [HeapBlock.record 0 (List.replicate fields.length (RawOCaml.imm 1))] }).heap[s.heap.length]? =
      some (HeapBlock.record 0 (List.replicate fields.length (RawOCaml.imm 1))) := by
    rw [pushRoot_heap]
    exact List.getElem?_concat_length ..
  obtain ⟨cur2, hro, hlen, hL, _, _, hfa⟩ :=
    storeFields_invariant dec s.heap.length fields vals hf 0 s.roots
      (List.replicate fields.length (RawOCaml.imm 1))
      (pushRoot (RawOCaml.ptr s.heap.length)
        { s with heap := s.heap ++
            [HeapBlock.record 0 (List.replicate fields.length (RawOCaml.imm 1))] })
      hroots2 hheap2 (by simp)
  rw [hout]
  have hro2 : (storeFields s.roots.length 0 fields
      (pushRoot (RawOCaml.ptr s.heap.length)
        { s with heap := s.heap ++
            [HeapBlock.record 0 (List.replicate fields.length (RawOCaml.imm 1))] })).roots =
      s.roots ++ [RawOCaml.ptr s.heap.length] := by rw [hro, hroots2]
  refine ⟨?_, ?_, ?_⟩
  · exact rootGet_concat_self _ s.roots _ hro2
  · simp only [popRoot_roots, hro2, List.dropLast_concat]
  · simp only [rootGet_concat_self _ s.roots _ hro2]
    have hLpop : (popRoot (storeFields s.roots.length 0 fields
        (pushRoot (RawOCaml.ptr s.heap.length)
          { s with heap := s.heap ++
              [HeapBlock.record 0 (List.replicate fields.length (RawOCaml.imm 1))] }))).heap[s.heap.length]? =
        some (HeapBlock.record 0 cur2) := by
      rw [popRoot_heap]
      exact hL
    have hpopext : HeapExtExceptAt s.heap.length
        (storeFields s.roots.length 0 fields
          (pushRoot (RawOCaml.ptr s.heap.length)
            { s with heap := s.heap ++
                [HeapBlock.record 0 (List.replicate fields.length (RawOCaml.imm 1))] }))
        (popRoot (storeFields s.roots.length 0 fields
          (pushRoot (RawOCaml.ptr s.heap.length)
            { s with heap := s.heap ++
                [HeapBlock.record 0 (List.replicate fields.length (RawOCaml.imm 1))] }))) :=
      heapExtExceptAt_of_heapExt ⟨[], by rw [popRoot_heap]; simp⟩
    simp only [decodeTuple, hLpop]
    refine decodeAll_of_forall2 _ cur2 vals ?_
    have hfa2 := by simpa using hfa
    exact List.Forall₂.imp (fun v a hva => hva _ hpopext) hfa2


theorem consStep_roots (g : A → ConvM) (hg : RootsPreserved g)
    (r : List RawOCaml) (v1 : RawOCaml) (t1 : OCamlRuntime) (x : A)
    (hroots : t1.roots = r ++ [v1]) :
    ∃ w, (consStep g r.length t1 x).roots = r ++ [w] := by
  have hr := hg x t1
  rcases hgx : g x t1 with ⟨v, u⟩
  rw [hgx] at hr
  simp only at hr
  have hur : u.roots = r ++ [v1] := by rw [hr, hroots]
  refine ⟨RawOCaml.ptr u.heap.length, ?_⟩
  simp only [consStep, hgx, alloc_cons, allocBlock, popRoot_roots, keepRoot_roots,
    pushRoot_heap, pushRoot_roots, hur]
  rw [list_set_concat2, List.dropLast_concat]

theorem consLoop_roots (g : A → ConvM) (hg : RootsPreserved g) :
    ∀ (xs : List A) (r : List RawOCaml) (v1 : RawOCaml) (t : OCamlRuntime),
    t.roots = r ++ [v1] →
    ∃ w, ((xs.reverse).foldl (consStep g r.length) t).roots = r ++ [w] := by
  intro xs
  induction xs with
  | nil =>
    intro r v1 t hroots
    exact ⟨v1, hroots⟩
  | cons x xs ih =>
    intro r v1 t hroots
    obtain ⟨w, hw⟩ := ih r v1 t hroots
    have hfold : ((x :: xs).reverse).foldl (consStep g r.length) t =
        consStep g r.length ((xs.reverse).foldl (consStep g r.length) t) x := by
      rw [List.reverse_cons, List.foldl_append]
      rfl
    rw [hfold]
    exact consStep_roots g hg r w _ x hw

theorem storeFields_roots (fields : List ConvM) (h : FieldsRootsPreserved fields) :
    ∀ (ti i : Nat) (s : OCamlRuntime), (storeFields ti i fields s).roots = s.roots := by
  induction fields with
  | nil =>
    intro ti i s
    rfl
  | cons f fs ih =>
    intro ti i s
    have hhead : ∀ u, (f u).2.roots = u.roots := h f (by simp)
    have htail : FieldsRootsPreserved fs := fun f2 hf2 => h f2 (by simp [hf2])
    show (storeFields ti (i + 1) fs (store_raw_field_at ti i (f s).1 (f s).2)).roots = s.roots
    rw [ih htail, store_raw_field_at_roots, hhead]

/-- C7: root-stack discipline: for each composite conversion (option, result,
list, tuple), the root stack after the call equals the root stack before it —
every root acquired inside (payload roots, the reused list root, the tuple
root) is released before the conversion returns. -/
theorem c7_root_discipline (g : A → ConvM) (ge : E → ConvM) (fields : List ConvM)
    (hg : RootsPreserved g) (hge : RootsPreserved ge) (hfields : FieldsRootsPreserved fields)
    (x : Option A) (rx : RustResult A E) (xs : List A) (s : OCamlRuntime) :
    (optionToOCaml g x s).2.roots = s.roots ∧
    (resultToOCaml g ge rx s).2.roots = s.roots ∧
    (listToOCaml g xs s).2.roots = s.roots ∧
    (tupleToOCaml fields s).2.roots = s.roots := by
  refine ⟨?_, ?_, ?_, ?_⟩
  · cases x with
    | none => rfl
    | some a =>
      rw [optionToOCaml_some_eq]
      have h1 := (wrapped_state_spec (g a s).1 (g a s).2 0).1
      simp only [h1]
      exact hg a s
  · cases rx with
    | Ok a =>
      rw [resultToOCaml_ok_eq]
      have h1 := (wrapped_state_spec (g a s).1 (g a s).2 0).1
      simp only [h1]
      exact hg a s
    | Err e =>
      rw [resultToOCaml_err_eq]
      have h1 := (wrapped_state_spec (ge e s).1 (ge e s).2 1).1
      simp only [h1]
      exact hge e s
  · have hout : (listToOCaml g xs s).2 =
        popRoot ((xs.reverse).foldl (consStep g s.roots.length) (pushRoot rawNIL s)) := rfl
    obtain ⟨w, hw⟩ :=
      consLoop_roots g hg xs s.roots rawNIL (pushRoot rawNIL s) (pushRoot_roots rawNIL s)
    rw [hout, popRoot_roots, hw, List.dropLast_concat]
  · have hout : (tupleToOCaml fields s).2 =
        popRoot (storeFields s.roots.length 0 fields
          (pushRoot (RawOCaml.ptr s.heap.length)
            { s with heap := s.heap ++
                [HeapBlock.record 0 (List.replicate fields.length (RawOCaml.imm 1))] })) := rfl
    rw [hout, popRoot_roots, storeFields_roots fields hfields, pushRoot_roots,
      List.dropLast_concat]

/-- C1 (amended): converting a host `i64` produces the word `(n << 1) | 1`
(the shift wrapping at 64 bits), and decoding it back by an arithmetic shift
right by one reproduces `n` exactly for every `i64` in the 63-bit range
`[-2^62, 2^62)`; in that range the word is exactly `2*n + 1`.  (Outside this
range the wrapping shift discards the top bit, so the round trip fails —
see the counterexample.) -/
theorem c1_i64_roundtrip (n : Int) (h1 : -(2 ^ 62) ≤ n) (h2 : n < 2 ^ 62) :
    i64_to_ocaml_raw n = 2 * n + 1 ∧ ocaml_int_decode (i64_to_ocaml_raw n) = n := by
  constructor
  · unfold i64_to_ocaml_raw
    rw [i64wrap_eq_self (2 * n) (by omega) (by omega), int_lor_two_mul_one]
  · exact i64_encode_decode_in_range n h1 h2

theorem c1_witness :
    -(2 ^ 62) ≤ (5 : Int) ∧ (5 : Int) < 2 ^ 62 ∧
    (i64_to_ocaml_raw 5 = 2 * 5 + 1 ∧ ocaml_int_decode (i64_to_ocaml_raw 5) = 5) :=
  ⟨by decide, by decide, c1_i64_roundtrip 5 (by decide) (by decide)⟩

/-- C1 counterexample: at the i64 input `2^62` the encoding wraps, and
decoding the word back yields `-(2^62)`, not the original value, refuting
"for all i64 inputs". -/
theorem c1_counterexample :
    ocaml_int_decode (i64_to_ocaml_raw (2 ^ 62)) = -(2 ^ 62) ∧
    ((2 : Int) ^ 62) ≠ -(2 ^ 62) := by
  constructor
  · unfold i64_to_ocaml_raw ocaml_int_decode
    have h1 : i64wrap (2 * 2 ^ 62) = 2 * -(2 ^ 62) := by
      unfold i64wrap
      omega
    rw [h1, int_lor_two_mul_one, int_asr_one_two_mul_add_one]
  · decide

/-- C10: converting a host `i32` widens (sign-extends) to `i64` and applies
the `i64` immediate encoding; every `i32` value — the full range
`[-2^31, 2^31)` — is within the 63-bit window, so encode-then-decode
recovers the original value for all inputs. -/
theorem c10_i32_widen_roundtrip (n : Int) (h1 : -(2 ^ 31) ≤ n) (h2 : n < 2 ^ 31) :
    i32_to_ocaml_raw n = i64_to_ocaml_raw n ∧
    ocaml_int_decode (i32_to_ocaml_raw n) = n :=
  ⟨rfl, i64_encode_decode_in_range n (by omega) (by omega)⟩

theorem c10_witness :
    -(2 ^ 31) ≤ (-(2 ^ 31) : Int) ∧ (-(2 ^ 31) : Int) < 2 ^ 31 ∧
    (i32_to_ocaml_raw (-(2 ^ 31)) = i64_to_ocaml_raw (-(2 ^ 31)) ∧
     ocaml_int_decode (i32_to_ocaml_raw (-(2 ^ 31))) = -(2 ^ 31)) :=
  ⟨by decide, by decide, c10_i32_widen_roundtrip (-(2 ^ 31)) (by decide) (by decide)⟩

/-- C2: list conversion iterates the source in reverse, starting from the
nil immediate in one reused root; each step converts an element, roots it,
allocates a cons cell of (element, current root content) and overwrites the
reused root with it.  The result decodes to exactly the source elements in
source order, the root stack is restored, the heap only grows, and at most
two root slots beyond the element conversion's own constant need are ever
occupied, independent of the list length. -/
theorem c2_list_conversion (g : A → ConvM) (dec : RawOCaml → OCamlRuntime → Option A)
    (c : Nat) (hdec : DecStable dec) (hg : ConvOk g dec) (hc : HwmBounded g c)
    (xs : List A) (s : OCamlRuntime) :
    (listToOCaml g xs s).2.roots = s.roots ∧
    HeapExt s (listToOCaml g xs s).2 ∧
    decodeList dec (xs.length + 1) (listToOCaml g xs s).1 (listToOCaml g xs s).2 = some xs ∧
    (listToOCaml g xs s).2.hwm ≤ max s.hwm (s.roots.length + c + 2) :=
  listToOCaml_spec g dec c hdec hg hc xs s

/-- C6: converting an arbitrary host byte slice to the OCaml string type is
total for every byte list — valid text or not — and performs a plain
reinterpretation followed by an as-is copy: the new heap block holds exactly
the input bytes, and no error value exists in the return type. -/
theorem c6_bytes_as_text_unchecked (bs : List Nat) (s : OCamlRuntime) :
    from_utf8_unchecked_bytes bs = bs ∧
    bytesToOCamlString bs s =
      (RawOCaml.ptr s.heap.length, { s with heap := s.heap ++ [HeapBlock.byteData bs] }) :=
  ⟨rfl, rfl⟩

/-- C8: fixed numeric array conversion is a single bulk allocation plus one
bulk copy: exactly one block is appended, holding its own copy of the host
slice's contents bitwise, no root is touched, and the borrow readback
returns exactly the source contents — including for the zero-length slice. -/
theorem c8_bigarray_bulk_copy (xs : List Int) (s : OCamlRuntime) :
    sliceToOCamlArray1 xs s =
      (RawOCaml.ptr s.heap.length, { s with heap := s.heap ++ [HeapBlock.bigData xs] }) ∧
    (sliceToOCamlArray1 xs s).2.roots = s.roots ∧
    bigarrayContents (sliceToOCamlArray1 xs s).1 (sliceToOCamlArray1 xs s).2 = some xs := by
  refine ⟨rfl, rfl, ?_⟩
  have hL : (({ s with heap := s.heap ++ [HeapBlock.bigData xs] } : OCamlRuntime)).heap[s.heap.length]? =
      some (HeapBlock.bigData xs) := List.getElem?_concat_length ..
  simp only [sliceToOCamlArray1, alloc_bigarray1, allocBlock, bigarrayContents, hL]

/-- C9: converting through a box or a double reference delegates transparently
to the referent's conversion: the produced value and the final runtime state
(hence allocations and tagging) are exactly those of converting the referent
directly. -/
theorem c9_box_and_ref_delegate (g : A → ConvM) (b : RustBox A) (x : A) (s : OCamlRuntime) :
    boxToOCaml g b s = g b.val s ∧ refRefToOCaml g x s = g x s :=
  ⟨rfl, rfl⟩

theorem decodeBool_stable : DecStable decodeBool :=
  fun _ _ _ _ _ h => h

theorem boolToOCaml_convok : ConvOk boolToOCaml decodeBool := by
  intro a s
  refine ⟨⟨[], (List.append_nil s.heap).symm⟩, rfl, ?_⟩
  cases a <;> rfl

theorem boolToOCaml_hwm : HwmBounded boolToOCaml 0 :=
  fun _ s => le_max_left _ _

theorem boolToOCaml_rootspres : RootsPreserved boolToOCaml :=
  fun _ _ => rfl

/-- A heap-allocating field conversion (byte/string payload) satisfies the
tuple field contract: its fresh block lives at an address other than the
tuple's, so its decode survives all later extensions and tuple-field stores. -/
theorem bytesFieldOkAt (L : Nat) (bs : List Nat) :
    FieldOkAt decodeByteData L (bytesToOCamlString bs) bs := by
  intro u hL
  refine ⟨⟨[HeapBlock.byteData bs], rfl⟩, rfl, ?_⟩
  intro u2 hu2
  obtain ⟨hlen, hagree⟩ := hu2
  have h1 : (bytesToOCamlString bs u).2.heap = u.heap ++ [HeapBlock.byteData bs] := rfl
  have h2 : u2.heap[u.heap.length]? = some (HeapBlock.byteData bs) := by
    have hlt : u.heap.length < (bytesToOCamlString bs u).2.heap.length := by
      rw [h1]
      simp
    have hne : u.heap.length ≠ L := by omega
    rw [hagree u.heap.length hlt hne, h1]
    exact List.getElem?_concat_length ..
  have hv : (bytesToOCamlString bs u).1 = RawOCaml.ptr u.heap.length := rfl
  rw [hv]
  simp only [decodeByteData, h2]

theorem c2_witness :
    DecStable decodeBool ∧ ConvOk boolToOCaml decodeBool ∧ HwmBounded boolToOCaml 0 ∧
    ((listToOCaml boolToOCaml [true, false, true] ⟨[], [], 0⟩).2.roots =
       (⟨[], [], 0⟩ : OCamlRuntime).roots ∧
     HeapExt ⟨[], [], 0⟩ (listToOCaml boolToOCaml [true, false, true] ⟨[], [], 0⟩).2 ∧
     decodeList decodeBool ([true, false, true].length + 1)
       (listToOCaml boolToOCaml [true, false, true] ⟨[], [], 0⟩).1
       (listToOCaml boolToOCaml [true, false, true] ⟨[], [], 0⟩).2 =
       some [true, false, true] ∧
     (listToOCaml boolToOCaml [true, false, true] ⟨[], [], 0⟩).2.hwm ≤
       max (⟨[], [], 0⟩ : OCamlRuntime).hwm
         ((⟨[], [], 0⟩ : OCamlRuntime).roots.length + 0 + 2)) :=
  ⟨decodeBool_stable, boolToOCaml_convok, boolToOCaml_hwm,
   c2_list_conversion boolToOCaml decodeBool 0 decodeBool_stable boolToOCaml_convok
     boolToOCaml_hwm [true, false, true] ⟨[], [], 0⟩⟩

theorem c3_witness :
    DecStable decodeBool ∧ ConvOk boolToOCaml decodeBool ∧
    (optionToOCaml boolToOCaml (none : Option Bool) ⟨[], [], 0⟩ =
       (rawNONE, (⟨[], [], 0⟩ : OCamlRuntime)) ∧
     decodeOption decodeBool (optionToOCaml boolToOCaml (none : Option Bool) ⟨[], [], 0⟩).1
       (optionToOCaml boolToOCaml (none : Option Bool) ⟨[], [], 0⟩).2 = some none ∧
     (optionToOCaml boolToOCaml (some true) ⟨[], [], 0⟩).2.roots =
       (⟨[], [], 0⟩ : OCamlRuntime).roots ∧
     decodeOption decodeBool (optionToOCaml boolToOCaml (some true) ⟨[], [], 0⟩).1
       (optionToOCaml boolToOCaml (some true) ⟨[], [], 0⟩).2 = some (some true) ∧
     (optionToOCaml boolToOCaml (some true) ⟨[], [], 0⟩).1 =
       RawOCaml.ptr (boolToOCaml true ⟨[], [], 0⟩).2.heap.length ∧
     (optionToOCaml boolToOCaml (some true) ⟨[], [], 0⟩).2.heap =
       (boolToOCaml true ⟨[], [], 0⟩).2.heap ++
         [HeapBlock.record 0 [(boolToOCaml true ⟨[], [], 0⟩).1]]) :=
  ⟨decodeBool_stable, boolToOCaml_convok,
   c3_option_conversion boolToOCaml decodeBool decodeBool_stable boolToOCaml_convok
     true ⟨[], [], 0⟩⟩

theorem c4_witness :
    DecStable decodeBool ∧ ConvOk boolToOCaml decodeBool ∧
    ((resultToOCaml boolToOCaml boolToOCaml (RustResult.Ok true) ⟨[], [], 0⟩).2.roots =
       (⟨[], [], 0⟩ : OCamlRuntime).roots ∧
     (resultToOCaml boolToOCaml boolToOCaml
        (RustResult.Err false : RustResult Bool Bool) ⟨[], [], 0⟩).2.roots =
       (⟨[], [], 0⟩ : OCamlRuntime).roots ∧
     decodeResult decodeBool decodeBool
       (resultToOCaml boolToOCaml boolToOCaml (RustResult.Ok true) ⟨[], [], 0⟩).1
       (resultToOCaml boolToOCaml boolToOCaml (RustResult.Ok true) ⟨[], [], 0⟩).2 =
       some (RustResult.Ok true) ∧
     decodeResult decodeBool decodeBool
       (resultToOCaml boolToOCaml boolToOCaml
         (RustResult.Err false : RustResult Bool Bool) ⟨[], [], 0⟩).1
       (resultToOCaml boolToOCaml boolToOCaml (RustResult.Err false) ⟨[], [], 0⟩).2 =
       some (RustResult.Err false) ∧
     (resultToOCaml boolToOCaml boolToOCaml (RustResult.Ok true) ⟨[], [], 0⟩).1 =
       RawOCaml.ptr (boolToOCaml true ⟨[], [], 0⟩).2.heap.length ∧
     (resultToOCaml boolToOCaml boolToOCaml (RustResult.Ok true) ⟨[], [], 0⟩).2.heap =
       (boolToOCaml true ⟨[], [], 0⟩).2.heap ++
         [HeapBlock.record 0 [(boolToOCaml true ⟨[], [], 0⟩).1]] ∧
     (resultToOCaml boolToOCaml boolToOCaml
        (RustResult.Err false : RustResult Bool Bool) ⟨[], [], 0⟩).1 =
       RawOCaml.ptr (boolToOCaml false ⟨[], [], 0⟩).2.heap.length ∧
     (resultToOCaml boolToOCaml boolToOCaml
        (RustResult.Err false : RustResult Bool Bool) ⟨[], [], 0⟩).2.heap =
       (boolToOCaml false ⟨[], [], 0⟩).2.heap ++
         [HeapBlock.record 1 [(boolToOCaml false ⟨[], [], 0⟩).1]]) :=
  ⟨decodeBool_stable, boolToOCaml_convok,
   c4_result_conversion boolToOCaml boolToOCaml decodeBool decodeBool
     decodeBool_stable decodeBool_stable boolToOCaml_convok boolToOCaml_convok
     true false ⟨[], [], 0⟩⟩

theorem c5_witness :
    List.Forall₂ (FieldOkAt decodeByteData (⟨[], [], 0⟩ : OCamlRuntime).heap.length)
      [bytesToOCamlString [72, 105], bytesToOCamlString [], bytesToOCamlString [255, 0]]
      [[72, 105], [], [255, 0]] ∧
    2 ≤ ([bytesToOCamlString [72, 105], bytesToOCamlString [],
          bytesToOCamlString [255, 0]] : List ConvM).length ∧
    ([bytesToOCamlString [72, 105], bytesToOCamlString [],
      bytesToOCamlString [255, 0]] : List ConvM).length ≤ 10 ∧
    ((tupleToOCaml [bytesToOCamlString [72, 105], bytesToOCamlString [],
        bytesToOCamlString [255, 0]] ⟨[], [], 0⟩).1 =
       RawOCaml.ptr (⟨[], [], 0⟩ : OCamlRuntime).heap.length ∧
     (tupleToOCaml [bytesToOCamlString [72, 105], bytesToOCamlString [],
        bytesToOCamlString [255, 0]] ⟨[], [], 0⟩).2.roots =
       (⟨[], [], 0⟩ : OCamlRuntime).roots ∧
     decodeTuple decodeByteData
       (tupleToOCaml [bytesToOCamlString [72, 105], bytesToOCamlString [],
         bytesToOCamlString [255, 0]] ⟨[], [], 0⟩).1
       (tupleToOCaml [bytesToOCamlString [72, 105], bytesToOCamlString [],
         bytesToOCamlString [255, 0]] ⟨[], [], 0⟩).2 =
       some [[72, 105], [], [255, 0]]) :=
  ⟨List.Forall₂.cons (bytesFieldOkAt _ [72, 105])
     (List.Forall₂.cons (bytesFieldOkAt _ [])
       (List.Forall₂.cons (bytesFieldOkAt _ [255, 0]) List.Forall₂.nil)),
   by decide, by decide,
   c5_tuple_conversion decodeByteData
     [bytesToOCamlString [72, 105], bytesToOCamlString [], bytesToOCamlString [255, 0]]
     [[72, 105], [], [255, 0]] ⟨[], [], 0⟩
     (List.Forall₂.cons (bytesFieldOkAt _ [72, 105])
       (List.Forall₂.cons (bytesFieldOkAt _ [])
         (List.Forall₂.cons (bytesFieldOkAt _ [255, 0]) List.Forall₂.nil)))
     (by decide) (by decide)⟩

theorem c7_witness :
    RootsPreserved boolToOCaml ∧
    FieldsRootsPreserved [boolToOCaml true, boolToOCaml false] ∧
    ((optionToOCaml boolToOCaml (some true) ⟨[], [], 0⟩).2.roots =
       (⟨[], [], 0⟩ : OCamlRuntime).roots ∧
     (resultToOCaml boolToOCaml boolToOCaml
        (RustResult.Ok false : RustResult Bool Bool) ⟨[], [], 0⟩).2.roots =
       (⟨[], [], 0⟩ : OCamlRuntime).roots ∧
     (listToOCaml boolToOCaml [true] ⟨[], [], 0⟩).2.roots =
       (⟨[], [], 0⟩ : OCamlRuntime).roots ∧
     (tupleToOCaml [boolToOCaml true, boolToOCaml false] ⟨[], [], 0⟩).2.roots =
       (⟨[], [], 0⟩ : OCamlRuntime).roots) :=
  ⟨boolToOCaml_rootspres,
   fun f hf s => by
     simp at hf
     rcases hf with h | h <;> subst h <;> rfl,
   c7_root_discipline boolToOCaml boolToOCaml [boolToOCaml true, boolToOCaml false]
     boolToOCaml_rootspres boolToOCaml_rootspres
     (fun f hf s => by
       simp at hf
       rcases hf with h | h <;> subst h <;> rfl)
     (some true) (RustResult.Ok false) [true] ⟨[], [], 0⟩⟩
